import Mathlib

/-!
Shallow embedding of the section editor in scripts/update-base-md.py.

A document is a list of characters; its lines (Python text.split of a
newline) are newline-free lists of characters.  The heading regex
(1 to 6 hash characters, then whitespace, then the rest) is modelled by
an explicit greedy matcher with backtracking over the hash count.
Python sys.exit(1) on failure is modelled by Option.none and by
Except.error at the command level.  Python str.lower is modelled with
Char.toLower and the whitespace class with its ASCII part; the claims
under study do not depend on behaviour outside ASCII.
-/

/-- Whitespace test: the ASCII part of the regex class used by the
script and of the default str.strip. -/
def isWs (c : Char) : Bool :=
  c = ' ' || c = '\t' || c = '\n' || c = '\r' || c = '\x0b' || c = '\x0c'

/-- Python text.split on a newline character: always at least one
(possibly empty) line, newline boundaries preserved on reassembly. -/
def splitLines : List Char → List (List Char)
  | [] => [[]]
  | c :: cs =>
    if c = '\n' then [] :: splitLines cs
    else
      match splitLines cs with
      | [] => [[c]]
      | l :: ls => (c :: l) :: ls

/-- Python newline.join of a list of lines. -/
def joinLines : List (List Char) → List Char
  | [] => []
  | [l] => l
  | l :: ls => l ++ '\n' :: joinLines ls

/-- Python str.strip of surrounding whitespace. -/
def stripChars (l : List Char) : List Char :=
  ((l.dropWhile isWs).reverse.dropWhile isWs).reverse

/-- Python s.rstrip of newline characters: removes every trailing
newline character. -/
def rstripNl : List Char → List Char
  | [] => []
  | c :: cs =>
    match rstripNl cs with
    | [] => if c = '\n' then [] else [c]
    | r => c :: r

/-- Python str.lower, on the ASCII fragment. -/
def lowerStr (l : List Char) : List Char := l.map Char.toLower

/-- Python substring membership: needle occurs contiguously in hay
(the empty needle occurs in every string). -/
def containsSub (hay needle : List Char) : Bool :=
  needle.isPrefixOf hay ||
    match hay with
    | [] => false
    | _ :: t => containsSub t needle

/-- True when the list starts with a whitespace character: the test
performed by the part of the regex demanding at least one whitespace
character after the hashes. -/
def wsAfter : List Char → Bool
  | c :: _ => isWs c
  | [] => false

/-- Greedy match of 1 to n leading hash characters followed by at
least one whitespace character, backtracking from the largest count,
as the regex engine does; on success returns the count matched and the
second capture group (the rest of the line after the greedy run of
whitespace). -/
def tryHashes : Nat → List Char → Option (Nat × List Char)
  | 0, _ => none
  | n + 1, l =>
    if (List.replicate (n + 1) '#').isPrefixOf l && wsAfter (l.drop (n + 1)) then
      some (n + 1, (l.drop (n + 1)).dropWhile isWs)
    else tryHashes n l

/-- The anchored heading regex of parse_sections applied to one line:
on success yields the hash count and the second capture group. -/
def heading_re_match (l : List Char) : Option (Nat × List Char) :=
  tryHashes 6 l

/-- One entry of the outline: line index, heading level, trimmed
title, exactly the tuples accumulated by parse_sections. -/
structure HeadingRecord where
  line_index : Nat
  level : Nat
  title : List Char
deriving DecidableEq

/-- The enumeration loop of parse_sections, carrying the index of the
first line of the remaining list. -/
def sectionsFrom (i : Nat) : List (List Char) → List HeadingRecord
  | [] => []
  | l :: ls =>
    match heading_re_match l with
    | some (lv, g2) => ⟨i, lv, stripChars g2⟩ :: sectionsFrom (i + 1) ls
    | none => sectionsFrom (i + 1) ls

/-- parse_sections: the lines of the text together with its outline. -/
def parse_sections (text : List Char) : List (List Char) × List HeadingRecord :=
  (splitLines text, sectionsFrom 0 (splitLines text))

/-- The matching test of find_section_bounds: lowercased title equal
to the lowercased target, or lowercased target contained in the
lowercased title. -/
def titleMatches (target title : List Char) : Bool :=
  lowerStr title = lowerStr target || containsSub (lowerStr title) (lowerStr target)

/-- The inner loop of find_section_bounds: the line index of the first
record of level at most lv, and the number of lines of the document
when there is none. -/
def section_end_idx (numLines lv : Nat) : List HeadingRecord → Nat
  | [] => numLines
  | r :: rest => if r.level ≤ lv then r.line_index else section_end_idx numLines lv rest

/-- find_section_bounds: first matching record in document order, with
the start line, the end boundary and the level; none models the
(None, None, None) result. -/
def find_section_bounds (lines : List (List Char)) :
    List HeadingRecord → List Char → Option (Nat × Nat × Nat)
  | [], _ => none
  | r :: rest, target =>
    if titleMatches target r.title then
      some (r.line_index, section_end_idx lines.length r.level rest, r.level)
    else find_section_bounds lines rest target

/-- The locate step shared by replace_section and append_after_section:
parse the text and run find_section_bounds on its outline. -/
def locate (text target : List Char) : Option (Nat × Nat × Nat) :=
  find_section_bounds (parse_sections text).1 (parse_sections text).2 target

/-- replace_section: keep the lines up to and including the heading,
then a blank line, the content lines after trailing newlines are
stripped, a blank line, and the lines from the end boundary on;
none models the sys.exit(1) path when the section is not found. -/
def replace_section (text target new_content : List Char) : Option (List Char) :=
  match locate text target with
  | none => none
  | some (start, endIdx, _) =>
    some (joinLines ((splitLines text).take (start + 1) ++ [[]] ++
      splitLines (rstripNl new_content) ++ [[]] ++ (splitLines text).drop endIdx))

/-- append_after_section: keep the lines before the end boundary,
then a blank line, the content lines after trailing newlines are
stripped, a blank line, and the lines from the end boundary on. -/
def append_after_section (text target new_content : List Char) : Option (List Char) :=
  match locate text target with
  | none => none
  | some (_, endIdx, _) =>
    some (joinLines ((splitLines text).take endIdx ++ [[]] ++
      splitLines (rstripNl new_content) ++ [[]] ++ (splitLines text).drop endIdx))

/-- The three ways main can receive content, or none of them; the
payload of the file and stdin constructors is what was read. -/
inductive ContentSource where
  | file (s : List Char)
  | stdin (s : List Char)
  | inlineArg (s : List Char)
  | absent
deriving DecidableEq

/-- read_content of the script: a file or stdin source yields its
contents even when empty; an inline argument is tested for Python
truthiness, so an empty inline string falls through to no content. -/
def read_content : ContentSource → Option (List Char)
  | ContentSource.file s => some s
  | ContentSource.stdin s => some s
  | ContentSource.inlineArg s => if s = [] then none else some s
  | ContentSource.absent => none

/-- The two error exits of main relevant to the core: missing content
and section not found. -/
inductive CliError where
  | noContent
  | notFound
deriving DecidableEq

/-- The replace path of main: reject when read_content produced
nothing, otherwise run replace_section and surface its failure. -/
def runReplace (text target : List Char) (content : Option (List Char)) :
    Except CliError (List Char) :=
  match content with
  | none => Except.error CliError.noContent
  | some c =>
    match replace_section text target c with
    | none => Except.error CliError.notFound
    | some r => Except.ok r

/-- The append path of main, with the same content check. -/
def runAppend (text target : List Char) (content : Option (List Char)) :
    Except CliError (List Char) :=
  match content with
  | none => Except.error CliError.noContent
  | some c =>
    match append_after_section text target c with
    | none => Except.error CliError.notFound
    | some r => Except.ok r

/-- The number of leading hash characters of a line. -/
def leadCount (l : List Char) : Nat := (l.takeWhile (fun c => c = '#')).length

/-- Heading rule as the specification words it: count the leading hash
characters; a heading needs between one and six of them, followed by at
least one whitespace character; the level is the count and the title is
the trailing text with surrounding whitespace trimmed.  Written for
comparison with the regex-derived extractor. -/
def specHeading (l : List Char) : Option (Nat × List Char) :=
  if 1 ≤ leadCount l ∧ leadCount l ≤ 6 ∧ wsAfter (l.drop (leadCount l)) = true then
    some (leadCount l, stripChars (l.drop (leadCount l)))
  else none

/-- The record the specification-side heading rule produces for one
enumerated line: its index paired with the level and title of
specHeading, when the line is a heading. -/
def specRecord (p : Nat × List Char) : Option HeadingRecord :=
  (specHeading p.2).map fun q => ⟨p.1, q.1, q.2⟩

/-- Outline extraction as the specification words it: one record per
line satisfying the heading rule, in line order.  Written for
comparison with parse_sections. -/
def specExtract (text : List Char) : List HeadingRecord :=
  (splitLines text).enum.filterMap specRecord

/-- Removal of trailing blank lines, reading blank as empty: the
operation the specification describes for the content lines. -/
def trimTrailingBlank : List (List Char) → List (List Char)
  | [] => []
  | l :: ls =>
    match trimTrailingBlank ls with
    | [] => if l = [] then [] else [l]
    | r => l :: r

/-- A content line is safe at level lv when it is not a heading line
of level at most lv. -/
def contentSafe (lv : Nat) (l : List Char) : Bool :=
  match heading_re_match l with
  | some (n, _) => lv < n
  | none => true

/-- String literals as character lists, for concrete instances. -/
def ofStr (s : String) : List Char := s.toList

theorem splitLines_ne_nil (t : List Char) : splitLines t ≠ [] := by
  induction t with
  | nil => simp [splitLines]
  | cons c cs ih =>
    simp only [splitLines]
    by_cases h : c = '\n'
    · simp [h]
    · rw [if_neg h]
      cases hs : splitLines cs with
      | nil => simp
      | cons l ls => simp

theorem mem_splitLines_not_nl (t : List Char) : ∀ l ∈ splitLines t, '\n' ∉ l := by
  induction t with
  | nil =>
    intro l hl
    simp [splitLines] at hl
    simp [hl]
  | cons c cs ih =>
    intro l hl
    simp only [splitLines] at hl
    by_cases h : c = '\n'
    · rw [if_pos h] at hl
      rcases List.mem_cons.mp hl with h1 | h2
      · simp [h1]
      · exact ih l h2
    · rw [if_neg h] at hl
      cases hs : splitLines cs with
      | nil => exact absurd hs (splitLines_ne_nil cs)
      | cons x xs =>
        rw [hs] at hl
        rcases List.mem_cons.mp hl with h1 | h2
        · subst h1
          intro hmem
          rcases List.mem_cons.mp hmem with h3 | h4
          · exact h h3.symm
          · exact ih x (by rw [hs]; exact List.mem_cons_self x xs) h4
        · exact ih l (by rw [hs]; exact List.mem_cons_of_mem x h2)

theorem joinLines_splitLines (t : List Char) : joinLines (splitLines t) = t := by
  induction t with
  | nil => rfl
  | cons c cs ih =>
    simp only [splitLines]
    by_cases h : c = '\n'
    · rw [if_pos h]
      cases hs : splitLines cs with
      | nil => exact absurd hs (splitLines_ne_nil cs)
      | cons x xs =>
        rw [hs] at ih
        subst h
        show joinLines ([] :: x :: xs) = '\n' :: cs
        simp only [joinLines]
        rw [ih]
        rfl
    · rw [if_neg h]
      cases hs : splitLines cs with
      | nil => exact absurd hs (splitLines_ne_nil cs)
      | cons x xs =>
        rw [hs] at ih
        cases xs with
        | nil =>
          show joinLines [c :: x] = c :: cs
          simp only [joinLines] at ih ⊢
          rw [ih]
        | cons y ys =>
          show joinLines ((c :: x) :: y :: ys) = c :: cs
          simp only [joinLines] at ih ⊢
          rw [← ih]
          rfl

theorem splitLines_of_not_nl (l : List Char) (h : '\n' ∉ l) : splitLines l = [l] := by
  induction l with
  | nil => rfl
  | cons c cs ih =>
    simp only [splitLines]
    have hc : ¬ c = '\n' := fun hc => h (by simp [hc])
    rw [if_neg hc, ih (fun hm => h (List.mem_cons_of_mem c hm))]

theorem splitLines_append_nl (l t : List Char) (h : '\n' ∉ l) :
    splitLines (l ++ '\n' :: t) = l :: splitLines t := by
  induction l with
  | nil => simp [splitLines]
  | cons c cs ih =>
    have hc : ¬ c = '\n' := fun hc => h (by simp [hc])
    simp only [List.cons_append, splitLines, if_neg hc, List.append_eq]
    rw [ih (fun hm => h (List.mem_cons_of_mem c hm))]

theorem splitLines_joinLines (ls : List (List Char)) (hne : ls ≠ [])
    (hnl : ∀ l ∈ ls, '\n' ∉ l) : splitLines (joinLines ls) = ls := by
  induction ls with
  | nil => exact absurd rfl hne
  | cons x xs ih =>
    cases xs with
    | nil =>
      show splitLines (joinLines [x]) = [x]
      simp only [joinLines]
      exact splitLines_of_not_nl x (hnl x (List.mem_cons_self x []))
    | cons y ys =>
      show splitLines (joinLines (x :: y :: ys)) = x :: y :: ys
      simp only [joinLines]
      rw [splitLines_append_nl x _ (hnl x (List.mem_cons_self x _))]
      congr 1
      exact ih (by simp) (fun l hl => hnl l (List.mem_cons_of_mem x hl))

theorem joinLines_append (a b : List (List Char)) (ha : a ≠ []) (hb : b ≠ []) :
    joinLines (a ++ b) = joinLines a ++ '\n' :: joinLines b := by
  induction a with
  | nil => exact absurd rfl ha
  | cons x xs ih =>
    cases xs with
    | nil =>
      cases b with
      | nil => exact absurd rfl hb
      | cons y ys => simp [joinLines]
    | cons z zs =>
      show joinLines ((x :: z :: zs) ++ b) = joinLines (x :: z :: zs) ++ '\n' :: joinLines b
      have h1 : (x :: z :: zs) ++ b = x :: ((z :: zs) ++ b) := rfl
      rw [h1]
      have h2 : joinLines (x :: (z :: zs ++ b)) = x ++ '\n' :: joinLines (z :: zs ++ b) := by
        cases hzb : (z :: zs) ++ b <;> simp_all [joinLines]
      rw [h2, ih (by simp)]
      simp [joinLines]

theorem sectionsFrom_cons_some (i : Nat) (l : List Char) (ls : List (List Char))
    (lv : Nat) (g2 : List Char) (h : heading_re_match l = some (lv, g2)) :
    sectionsFrom i (l :: ls) = ⟨i, lv, stripChars g2⟩ :: sectionsFrom (i + 1) ls := by
  show (match heading_re_match l with
    | some (lv, g2) => (⟨i, lv, stripChars g2⟩ : HeadingRecord) :: sectionsFrom (i + 1) ls
    | none => sectionsFrom (i + 1) ls) =
    (⟨i, lv, stripChars g2⟩ : HeadingRecord) :: sectionsFrom (i + 1) ls
  rw [h]

theorem sectionsFrom_cons_none (i : Nat) (l : List Char) (ls : List (List Char))
    (h : heading_re_match l = none) :
    sectionsFrom i (l :: ls) = sectionsFrom (i + 1) ls := by
  show (match heading_re_match l with
    | some (lv, g2) => (⟨i, lv, stripChars g2⟩ : HeadingRecord) :: sectionsFrom (i + 1) ls
    | none => sectionsFrom (i + 1) ls) = sectionsFrom (i + 1) ls
  rw [h]

theorem sectionsFrom_append (a b : List (List Char)) :
    ∀ i, sectionsFrom i (a ++ b) = sectionsFrom i a ++ sectionsFrom (i + a.length) b := by
  induction a with
  | nil => intro i; simp [sectionsFrom]
  | cons x xs ih =>
    intro i
    have harith : i + (x :: xs).length = i + 1 + xs.length := by
      simp only [List.length_cons]
      omega
    cases hx : heading_re_match x with
    | none =>
      rw [List.cons_append, sectionsFrom_cons_none i x (xs ++ b) hx,
        sectionsFrom_cons_none i x xs hx, ih (i + 1), harith]
    | some p =>
      obtain ⟨lv, g2⟩ := p
      rw [List.cons_append, sectionsFrom_cons_some i x (xs ++ b) lv g2 hx,
        sectionsFrom_cons_some i x xs lv g2 hx, ih (i + 1), harith]
      rfl

theorem sectionsFrom_mem_bounds :
    ∀ (ls : List (List Char)) (i : Nat) (r : HeadingRecord), r ∈ sectionsFrom i ls →
      i ≤ r.line_index ∧ r.line_index < i + ls.length := by
  intro ls
  induction ls with
  | nil => intro i r hr; simp [sectionsFrom] at hr
  | cons x xs ih =>
    intro i r hr
    simp only [sectionsFrom] at hr
    cases hx : heading_re_match x with
    | none =>
      rw [hx] at hr
      have := ih (i + 1) r hr
      simp only [List.length_cons]
      omega
    | some p =>
      obtain ⟨lv, g2⟩ := p
      rw [hx] at hr
      rcases List.mem_cons.mp hr with h1 | h2
      · subst h1
        simp only [List.length_cons]
        omega
      · have := ih (i + 1) r h2
        simp only [List.length_cons]
        omega

theorem sectionsFrom_pairwise (ls : List (List Char)) :
    ∀ i, (sectionsFrom i ls).Pairwise (fun a b => a.line_index < b.line_index) := by
  induction ls with
  | nil => intro i; simp [sectionsFrom]
  | cons x xs ih =>
    intro i
    simp only [sectionsFrom]
    cases hx : heading_re_match x with
    | none => exact ih (i + 1)
    | some p =>
      obtain ⟨lv, g2⟩ := p
      refine List.Pairwise.cons ?_ (ih (i + 1))
      intro r hr
      have := sectionsFrom_mem_bounds xs (i + 1) r hr
      simp only
      omega

theorem sectionsFrom_mem_parse :
    ∀ (ls : List (List Char)) (i : Nat) (r : HeadingRecord), r ∈ sectionsFrom i ls →
      ∃ l ∈ ls, ∃ g, heading_re_match l = some (r.level, g) ∧ r.title = stripChars g := by
  intro ls
  induction ls with
  | nil => intro i r hr; simp [sectionsFrom] at hr
  | cons x xs ih =>
    intro i r hr
    simp only [sectionsFrom] at hr
    cases hx : heading_re_match x with
    | none =>
      rw [hx] at hr
      obtain ⟨l, hl, hg⟩ := ih (i + 1) r hr
      exact ⟨l, List.mem_cons_of_mem x hl, hg⟩
    | some p =>
      obtain ⟨lv, g2⟩ := p
      rw [hx] at hr
      rcases List.mem_cons.mp hr with h1 | h2
      · subst h1
        exact ⟨x, List.mem_cons_self x xs, g2, hx, rfl⟩
      · obtain ⟨l, hl, hg⟩ := ih (i + 1) r h2
        exact ⟨l, List.mem_cons_of_mem x hl, hg⟩

theorem find_bounds_append_skip (lines : List (List Char)) (pre rest : List HeadingRecord)
    (target : List Char) (h : ∀ r ∈ pre, titleMatches target r.title = false) :
    find_section_bounds lines (pre ++ rest) target = find_section_bounds lines rest target := by
  induction pre with
  | nil => rfl
  | cons r pre' ih =>
    simp only [List.cons_append, find_section_bounds,
      h r (List.mem_cons_self r pre'), Bool.false_eq_true, if_false]
    exact ih (fun q hq => h q (List.mem_cons_of_mem r hq))

theorem find_bounds_eq_some (lines : List (List Char)) (secs : List HeadingRecord)
    (target : List Char) (s e lv : Nat)
    (hfind : find_section_bounds lines secs target = some (s, e, lv)) :
    ∃ pre hd post, secs = pre ++ hd :: post ∧
      (∀ r ∈ pre, titleMatches target r.title = false) ∧
      titleMatches target hd.title = true ∧ s = hd.line_index ∧ lv = hd.level ∧
      e = section_end_idx lines.length lv post := by
  induction secs with
  | nil => simp [find_section_bounds] at hfind
  | cons r rest ih =>
    by_cases hm : titleMatches target r.title = true
    · simp only [find_section_bounds, hm, if_true, Option.some_inj,
        Prod.mk.injEq] at hfind
      obtain ⟨h1, h2, h3⟩ := hfind
      refine ⟨[], r, rest, rfl, by simp, hm, h1.symm, h3.symm, ?_⟩
      rw [← h2, h3]
    · have hm' : titleMatches target r.title = false := by
        cases hq : titleMatches target r.title
        · rfl
        · exact absurd hq hm
      simp only [find_section_bounds, hm', Bool.false_eq_true, if_false] at hfind
      obtain ⟨pre, hd, post, heq, hpre, hhd, hs, hlv, he⟩ := ih hfind
      refine ⟨r :: pre, hd, post, ?_, ?_, hhd, hs, hlv, he⟩
      · rw [heq, List.cons_append]
      · intro q hq
        rcases List.mem_cons.mp hq with h1 | h2
        · rw [h1]
          exact hm'
        · exact hpre q h2

theorem find_bounds_none (lines : List (List Char)) (secs : List HeadingRecord)
    (target : List Char) (h : ∀ r ∈ secs, titleMatches target r.title = false) :
    find_section_bounds lines secs target = none := by
  induction secs with
  | nil => rfl
  | cons r rest ih =>
    simp only [find_section_bounds, h r (List.mem_cons_self r rest),
      Bool.false_eq_true, if_false]
    exact ih (fun q hq => h q (List.mem_cons_of_mem r hq))

theorem find_bounds_isSome (lines : List (List Char)) (secs : List HeadingRecord)
    (target : List Char) (h : ∃ r ∈ secs, titleMatches target r.title = true) :
    ∃ s e lv, find_section_bounds lines secs target = some (s, e, lv) := by
  induction secs with
  | nil => simp at h
  | cons r rest ih =>
    by_cases hm : titleMatches target r.title = true
    · exact ⟨r.line_index, section_end_idx lines.length r.level rest, r.level,
        by simp [find_section_bounds, hm]⟩
    · have hm' : titleMatches target r.title = false := by
        cases hq : titleMatches target r.title
        · rfl
        · exact absurd hq hm
      obtain ⟨q, hq, hqm⟩ := h
      rcases List.mem_cons.mp hq with h1 | h2
      · exact absurd (h1 ▸ hqm) hm
      · obtain ⟨s, e, lv, hfind⟩ := ih ⟨q, h2, hqm⟩
        refine ⟨s, e, lv, ?_⟩
        simp only [find_section_bounds, hm', Bool.false_eq_true, if_false]
        exact hfind

theorem section_end_spec (n lv : Nat) : ∀ post : List HeadingRecord,
    (∃ p1 b p2, post = p1 ++ b :: p2 ∧ (∀ r ∈ p1, lv < r.level) ∧ b.level ≤ lv ∧
      section_end_idx n lv post = b.line_index) ∨
    ((∀ r ∈ post, lv < r.level) ∧ section_end_idx n lv post = n) := by
  intro post
  induction post with
  | nil => right; exact ⟨by simp, rfl⟩
  | cons r rest ih =>
    by_cases hr : r.level ≤ lv
    · left
      exact ⟨[], r, rest, rfl, by simp, hr, by simp [section_end_idx, hr]⟩
    · have hstep : section_end_idx n lv (r :: rest) = section_end_idx n lv rest := by
        simp [section_end_idx, hr]
      rcases ih with ⟨p1, b, p2, heq, hp1, hb, hend⟩ | ⟨hall, hend⟩
      · left
        refine ⟨r :: p1, b, p2, by rw [heq, List.cons_append], ?_, hb,
          by rw [hstep]; exact hend⟩
        intro q hq
        rcases List.mem_cons.mp hq with h1 | h2
        · rw [h1]; omega
        · exact hp1 q h2
      · right
        refine ⟨?_, by rw [hstep]; exact hend⟩
        intro q hq
        rcases List.mem_cons.mp hq with h1 | h2
        · rw [h1]; omega
        · exact hall q h2

theorem section_end_append (n lv : Nat) (a b : List HeadingRecord)
    (h : ∀ r ∈ a, lv < r.level) :
    section_end_idx n lv (a ++ b) = section_end_idx n lv b := by
  induction a with
  | nil => rfl
  | cons r rest ih =>
    have hr : ¬ r.level ≤ lv := by
      have := h r (List.mem_cons_self r rest)
      omega
    simp only [List.cons_append, section_end_idx, if_neg hr]
    exact ih (fun q hq => h q (List.mem_cons_of_mem r hq))

theorem append_split_unique {α : Type} (P : α → Prop) :
    ∀ (X Z Y W : List α), X ++ Y = Z ++ W →
      (∀ a ∈ X, P a) → (∀ a ∈ Y, ¬ P a) → (∀ a ∈ Z, P a) → (∀ a ∈ W, ¬ P a) →
      X = Z ∧ Y = W := by
  intro X
  induction X with
  | nil =>
    intro Z Y W heq hX hY hZ hW
    cases Z with
    | nil => exact ⟨rfl, by simpa using heq⟩
    | cons z Z' =>
      exfalso
      have hz : z ∈ Y := by
        have : Y = z :: (Z' ++ W) := by simpa using heq
        rw [this]
        exact List.mem_cons_self z _
      exact hY z hz (hZ z (List.mem_cons_self z Z'))
  | cons x X' ih =>
    intro Z Y W heq hX hY hZ hW
    cases Z with
    | nil =>
      exfalso
      have hx : x ∈ W := by
        have : W = x :: (X' ++ Y) := by simpa using heq.symm
        rw [this]
        exact List.mem_cons_self x _
      exact hW x hx (hX x (List.mem_cons_self x X'))
    | cons z Z' =>
      have hinj : x = z ∧ X' ++ Y = Z' ++ W := by simpa using heq
      obtain ⟨h1, h2⟩ := hinj
      obtain ⟨h3, h4⟩ := ih Z' Y W h2
        (fun a ha => hX a (List.mem_cons_of_mem x ha)) hY
        (fun a ha => hZ a (List.mem_cons_of_mem z ha)) hW
      exact ⟨by rw [h1, h3], h4⟩

theorem leadCount_cons (c : Char) (l : List Char) :
    leadCount (c :: l) = if c = '#' then leadCount l + 1 else 0 := by
  by_cases hc : c = '#'
  · rw [if_pos hc]
    simp [leadCount, List.takeWhile_cons, hc]
  · rw [if_neg hc]
    simp [leadCount, List.takeWhile_cons, hc]

theorem head_drop_lt_leadCount (l : List Char) :
    ∀ m, m < leadCount l → (l.drop m).head? = some '#' := by
  induction l with
  | nil =>
    intro m h
    rw [show leadCount ([] : List Char) = 0 from rfl] at h
    omega
  | cons c cs ih =>
    intro m h
    have hc : c = '#' := by
      by_contra hcc
      rw [leadCount_cons, if_neg hcc] at h
      omega
    cases m with
    | zero => simp [hc]
    | succ m' =>
      rw [leadCount_cons, if_pos hc] at h
      have := ih m' (by omega)
      simpa using this

theorem wsAfter_of_head (l : List Char) (c : Char) (h : l.head? = some c) :
    wsAfter l = isWs c := by
  cases l with
  | nil => simp at h
  | cons x xs =>
    have hx : x = c := by
      simpa using h
    rw [hx]
    rfl

theorem head_dropWhile_false (p : Char → Bool) :
    ∀ (l : List Char) (c : Char), (l.dropWhile p).head? = some c → p c = false := by
  intro l
  induction l with
  | nil => intro c h; simp [List.dropWhile] at h
  | cons x xs ih =>
    intro c h
    by_cases hx : p x = true
    · rw [List.dropWhile_cons_of_pos hx] at h
      exact ih c h
    · rw [List.dropWhile_cons_of_neg hx] at h
      have hxc : x = c := by simpa using h
      rw [← hxc]
      cases hq : p x
      · rfl
      · exact absurd hq hx

theorem replicate_hash_isPrefixOf :
    ∀ (m : Nat) (l : List Char),
      (List.replicate m '#').isPrefixOf l = decide (m ≤ leadCount l) := by
  intro m
  induction m with
  | zero =>
    intro l
    simp [List.isPrefixOf]
  | succ n ih =>
    intro l
    cases l with
    | nil =>
      have hn : ¬ (n + 1 ≤ leadCount ([] : List Char)) := by
        rw [show leadCount ([] : List Char) = 0 from rfl]
        omega
      simp [List.replicate_succ, List.isPrefixOf, hn]
    | cons c cs =>
      rw [List.replicate_succ]
      show (('#' == c) && (List.replicate n '#').isPrefixOf cs) =
        decide (n + 1 ≤ leadCount (c :: cs))
      rw [ih cs, leadCount_cons]
      by_cases hc : c = '#'
      · rw [if_pos hc, hc]
        simp only [beq_self_eq_true, Bool.true_and]
        rw [decide_eq_decide]
        omega
      · have hbeq : ('#' == c) = false := by
          rw [beq_eq_false_iff_ne]
          exact fun hx => hc hx.symm
        rw [if_neg hc, hbeq]
        simp only [Bool.false_and]
        have hn : ¬ (n + 1 ≤ 0) := by omega
        simp [hn]

theorem tryHashes_spec (l : List Char) : ∀ k : Nat,
    tryHashes k l =
      if 1 ≤ leadCount l ∧ leadCount l ≤ k ∧ wsAfter (l.drop (leadCount l)) = true then
        some (leadCount l, (l.drop (leadCount l)).dropWhile isWs)
      else none := by
  intro k
  induction k with
  | zero =>
    rw [if_neg]
    · rfl
    · rintro ⟨hx, hy, _⟩
      omega
  | succ n ih =>
    have hunfold : tryHashes (n + 1) l =
        if (List.replicate (n + 1) '#').isPrefixOf l && wsAfter (l.drop (n + 1)) then
          some (n + 1, (l.drop (n + 1)).dropWhile isWs)
        else tryHashes n l := rfl
    rw [hunfold, replicate_hash_isPrefixOf]
    by_cases h2 : leadCount l = n + 1
    · by_cases h3 : wsAfter (l.drop (n + 1)) = true
      · have hd : decide (n + 1 ≤ leadCount l) = true := by
          rw [decide_eq_true_iff]
          omega
        rw [hd, h3]
        simp only [Bool.and_self, if_true]
        rw [if_pos]
        · rw [h2]
        · refine ⟨by omega, by omega, ?_⟩
          rw [h2]
          exact h3
      · have h3' : wsAfter (l.drop (n + 1)) = false := by
          cases hq : wsAfter (l.drop (n + 1))
          · rfl
          · exact absurd hq h3
        have hcondF : ¬ ((decide (n + 1 ≤ leadCount l) &&
            wsAfter (l.drop (n + 1))) = true) := by
          rw [h3', Bool.and_false]
          simp
        have hA : ¬ (1 ≤ leadCount l ∧ leadCount l ≤ n ∧
            wsAfter (l.drop (leadCount l)) = true) := by
          rintro ⟨hx, hy, _⟩
          omega
        have hB : ¬ (1 ≤ leadCount l ∧ leadCount l ≤ n + 1 ∧
            wsAfter (l.drop (leadCount l)) = true) := by
          rintro ⟨hx, hy, hz⟩
          rw [h2] at hz
          exact h3 hz
        rw [if_neg hcondF, ih, if_neg hA, if_neg hB]
    · by_cases h1 : n + 1 ≤ leadCount l
      · have hlt : n + 1 < leadCount l := by omega
        have hhead : (l.drop (n + 1)).head? = some '#' :=
          head_drop_lt_leadCount l (n + 1) hlt
        have hws : wsAfter (l.drop (n + 1)) = false := by
          rw [wsAfter_of_head _ '#' hhead]
          rfl
        have hcondF : ¬ ((decide (n + 1 ≤ leadCount l) &&
            wsAfter (l.drop (n + 1))) = true) := by
          rw [hws, Bool.and_false]
          simp
        have hA : ¬ (1 ≤ leadCount l ∧ leadCount l ≤ n ∧
            wsAfter (l.drop (leadCount l)) = true) := by
          rintro ⟨hx, hy, _⟩
          omega
        have hB : ¬ (1 ≤ leadCount l ∧ leadCount l ≤ n + 1 ∧
            wsAfter (l.drop (leadCount l)) = true) := by
          rintro ⟨hx, hy, _⟩
          omega
        rw [if_neg hcondF, ih, if_neg hA, if_neg hB]
      · have hd : decide (n + 1 ≤ leadCount l) = false := by
          rw [decide_eq_false_iff_not]
          omega
        have hcondF : ¬ ((decide (n + 1 ≤ leadCount l) &&
            wsAfter (l.drop (n + 1))) = true) := by
          rw [hd, Bool.false_and]
          simp
        rw [if_neg hcondF, ih]
        by_cases hc : 1 ≤ leadCount l ∧ leadCount l ≤ n ∧
            wsAfter (l.drop (leadCount l)) = true
        · have hB : 1 ≤ leadCount l ∧ leadCount l ≤ n + 1 ∧
              wsAfter (l.drop (leadCount l)) = true := ⟨hc.1, by omega, hc.2.2⟩
          rw [if_pos hc, if_pos hB]
        · have hB : ¬ (1 ≤ leadCount l ∧ leadCount l ≤ n + 1 ∧
              wsAfter (l.drop (leadCount l)) = true) := by
            rintro ⟨hx, hy, hz⟩
            exact hc ⟨hx, by omega, hz⟩
          rw [if_neg hc, if_neg hB]

theorem dropWhile_isWs_idem (l : List Char) :
    (l.dropWhile isWs).dropWhile isWs = l.dropWhile isWs := by
  cases hq : l.dropWhile isWs with
  | nil => rfl
  | cons c t =>
    have hc : isWs c = false := head_dropWhile_false isWs l c (by rw [hq]; rfl)
    rw [List.dropWhile_cons_of_neg (by simp [hc])]

theorem stripChars_dropWhile (l : List Char) :
    stripChars (l.dropWhile isWs) = stripChars l := by
  unfold stripChars
  rw [dropWhile_isWs_idem]

theorem heading_re_match_eq_spec (l : List Char) :
    (heading_re_match l).map (fun q => (q.1, stripChars q.2)) = specHeading l := by
  rw [show heading_re_match l = tryHashes 6 l from rfl, tryHashes_spec l 6]
  unfold specHeading
  by_cases hcond : 1 ≤ leadCount l ∧ leadCount l ≤ 6 ∧
      wsAfter (l.drop (leadCount l)) = true
  · rw [if_pos hcond, if_pos hcond]
    simp only [Option.map_some']
    rw [stripChars_dropWhile]
  · rw [if_neg hcond, if_neg hcond]
    rfl

theorem sectionsFrom_eq_filterMap :
    ∀ (ls : List (List Char)) (i : Nat),
      sectionsFrom i ls = (ls.enumFrom i).filterMap specRecord := by
  intro ls
  induction ls with
  | nil => intro i; rfl
  | cons x xs ih =>
    intro i
    have henum : List.enumFrom i (x :: xs) = (i, x) :: List.enumFrom (i + 1) xs := rfl
    rw [henum]
    cases hx : heading_re_match x with
    | none =>
      have hspec : specHeading x = none := by
        rw [← heading_re_match_eq_spec, hx]
        rfl
      have hf : specRecord (i, x) = none := by
        unfold specRecord
        rw [show (i, x).2 = x from rfl, hspec]
        rfl
      rw [sectionsFrom_cons_none i x xs hx, List.filterMap_cons_none hf]
      exact ih (i + 1)
    | some p =>
      obtain ⟨lv, g2⟩ := p
      have hspec : specHeading x = some (lv, stripChars g2) := by
        rw [← heading_re_match_eq_spec, hx]
        rfl
      have hf : specRecord (i, x) = some ⟨i, lv, stripChars g2⟩ := by
        unfold specRecord
        rw [show (i, x).2 = x from rfl, hspec]
        rfl
      rw [sectionsFrom_cons_some i x xs lv g2 hx, List.filterMap_cons_some hf]
      rw [ih (i + 1)]

/-- C5: the Outline Extractor produces one HeadingRecord exactly for
each line made of one to six leading hash characters followed by at
least one whitespace character (a line with seven or more leading
hashes produces none), with level the hash count and title the
trailing text trimmed of surrounding whitespace, and nothing for any
other line: parse_sections agrees with the specification-side
extractor on every input text. -/
theorem c5_outline_extractor (text : List Char) :
    (parse_sections text).2 = specExtract text := by
  show sectionsFrom 0 (splitLines text) = specExtract text
  rw [sectionsFrom_eq_filterMap]
  rfl

theorem titleMatches_iff (target t : List Char) :
    titleMatches target t = true ↔
      (lowerStr t = lowerStr target ∨
        containsSub (lowerStr t) (lowerStr target) = true) := by
  unfold titleMatches
  simp

theorem locate_some_split (text target : List Char) (s e lv : Nat)
    (h : locate text target = some (s, e, lv)) :
    ∃ pre hd post, sectionsFrom 0 (splitLines text) = pre ++ hd :: post ∧
      (∀ r ∈ pre, titleMatches target r.title = false) ∧
      titleMatches target hd.title = true ∧
      s = hd.line_index ∧ lv = hd.level ∧
      e = section_end_idx (splitLines text).length lv post ∧
      hd.line_index < (splitLines text).length ∧
      (∀ r ∈ post, hd.line_index < r.line_index ∧
        r.line_index < (splitLines text).length) ∧
      post.Pairwise (fun a b => a.line_index < b.line_index) := by
  obtain ⟨pre, hd, post, heq, hpre, hhd, hs, hlv, he⟩ :=
    find_bounds_eq_some (splitLines text) (sectionsFrom 0 (splitLines text)) target s e lv h
  have hpw : (sectionsFrom 0 (splitLines text)).Pairwise
      (fun a b => a.line_index < b.line_index) := sectionsFrom_pairwise _ 0
  rw [heq] at hpw
  have hpw2 : (hd :: post).Pairwise (fun a b => a.line_index < b.line_index) :=
    (List.pairwise_append.mp hpw).2.1
  have hdpost : ∀ r ∈ post, hd.line_index < r.line_index :=
    (List.pairwise_cons.mp hpw2).1
  have hpostpw : post.Pairwise (fun a b => a.line_index < b.line_index) :=
    (List.pairwise_cons.mp hpw2).2
  have hmem_hd : hd ∈ sectionsFrom 0 (splitLines text) := by
    rw [heq]
    exact List.mem_append_right pre (List.mem_cons_self hd post)
  have hhd_lt : hd.line_index < (splitLines text).length := by
    have := sectionsFrom_mem_bounds (splitLines text) 0 hd hmem_hd
    omega
  refine ⟨pre, hd, post, heq, hpre, hhd, hs, hlv, he, hhd_lt, ?_, hpostpw⟩
  intro r hr
  have hmem : r ∈ sectionsFrom 0 (splitLines text) := by
    rw [heq]
    exact List.mem_append_right pre (List.mem_cons_of_mem hd hr)
  have := sectionsFrom_mem_bounds (splitLines text) 0 r hmem
  exact ⟨hdpost r hr, by omega⟩

/-- C1: when the locator matches a heading, the computed end line is
the line index of the first subsequent heading of level less than or
equal to the matched level; headings of strictly greater level before
that boundary never terminate the section and their line indices lie
strictly inside the computed range; when no such heading exists the
end line is the total line count. -/
theorem c1_boundary_rule (text target : List Char) (s e lv : Nat)
    (h : locate text target = some (s, e, lv)) :
    ∃ pre hd post, (parse_sections text).2 = pre ++ hd :: post ∧
      hd.line_index = s ∧ hd.level = lv ∧
      ((∃ p1 b p2, post = p1 ++ b :: p2 ∧ b.level ≤ lv ∧ e = b.line_index ∧
        ∀ r ∈ p1, lv < r.level ∧ s < r.line_index ∧ r.line_index < e) ∨
       ((∀ r ∈ post, lv < r.level ∧ s < r.line_index ∧ r.line_index < e) ∧
        e = (splitLines text).length)) := by
  obtain ⟨pre, hd, post, heq, hpre, hhd, hs, hlv, he, hhd_lt, hpost_b, hpostpw⟩ :=
    locate_some_split text target s e lv h
  refine ⟨pre, hd, post, heq, hs.symm, hlv.symm, ?_⟩
  rcases section_end_spec (splitLines text).length lv post with
    ⟨p1, b, p2, hpost, hp1, hb, hend⟩ | ⟨hall, hend⟩
  · left
    refine ⟨p1, b, p2, hpost, hb, by rw [he, hend], ?_⟩
    intro r hr
    have hmemp : r ∈ post := by
      rw [hpost]
      exact List.mem_append_left _ hr
    refine ⟨hp1 r hr, by rw [hs]; exact (hpost_b r hmemp).1, ?_⟩
    have hrb : r.line_index < b.line_index := by
      rw [hpost] at hpostpw
      exact (List.pairwise_append.mp hpostpw).2.2 r hr b (List.mem_cons_self b p2)
    rw [he, hend]
    exact hrb
  · right
    refine ⟨?_, by rw [he, hend]⟩
    intro r hr
    refine ⟨hall r hr, by rw [hs]; exact (hpost_b r hr).1, ?_⟩
    rw [he, hend]
    exact (hpost_b r hr).2

/-- C1 witness: in a document whose matched level-1 section contains a
level-2 subsection, the computed range ends at the next level-1
heading and the subsection lies inside the range. -/
theorem c1_boundary_rule_witness :
    ∃ pre hd post,
      (parse_sections (ofStr "# A\nx\n## B\ny\n# C\nz")).2 = pre ++ hd :: post ∧
      hd.line_index = 0 ∧ hd.level = 1 ∧
      ((∃ p1 b p2, post = p1 ++ b :: p2 ∧ b.level ≤ 1 ∧ 4 = b.line_index ∧
        ∀ r ∈ p1, 1 < r.level ∧ 0 < r.line_index ∧ r.line_index < 4) ∨
       ((∀ r ∈ post, 1 < r.level ∧ 0 < r.line_index ∧ r.line_index < 4) ∧
        4 = (splitLines (ofStr "# A\nx\n## B\ny\n# C\nz")).length)) :=
  c1_boundary_rule (ofStr "# A\nx\n## B\ny\n# C\nz") (ofStr "A") 0 4 1 (by decide)

/-- C2: the locator returns the first heading in document order whose
lowercased title equals the lowercased target or contains it as a
substring, earlier headings (including substring matches) taking
priority over later ones; and whenever some heading matches, the
locator succeeds. -/
theorem c2_first_match (text target : List Char) :
    (∀ s e lv, locate text target = some (s, e, lv) →
      ∃ pre hd post, (parse_sections text).2 = pre ++ hd :: post ∧
        (lowerStr hd.title = lowerStr target ∨
          containsSub (lowerStr hd.title) (lowerStr target) = true) ∧
        (∀ r ∈ pre, ¬ (lowerStr r.title = lowerStr target ∨
          containsSub (lowerStr r.title) (lowerStr target) = true)) ∧
        s = hd.line_index ∧ lv = hd.level) ∧
    (∀ hd ∈ (parse_sections text).2,
      (lowerStr hd.title = lowerStr target ∨
        containsSub (lowerStr hd.title) (lowerStr target) = true) →
      ∃ s e lv, locate text target = some (s, e, lv)) := by
  constructor
  · intro s e lv h
    obtain ⟨pre, hd, post, heq, hpre, hhd, hs, hlv, he⟩ :=
      find_bounds_eq_some (splitLines text) (sectionsFrom 0 (splitLines text))
        target s e lv h
    refine ⟨pre, hd, post, heq, (titleMatches_iff _ _).mp hhd, ?_, hs, hlv⟩
    intro r hr hmatch
    have hfalse := hpre r hr
    have htrue := (titleMatches_iff target r.title).mpr hmatch
    rw [hfalse] at htrue
    exact Bool.false_ne_true htrue
  · intro hd hmem hmatch
    exact find_bounds_isSome (splitLines text) (sectionsFrom 0 (splitLines text))
      target ⟨hd, hmem, (titleMatches_iff _ _).mpr hmatch⟩

/-- C2 witness: with headings Build then B and target B, the locator
returns the earlier substring match Build at line 0 even though an
exact match appears later. -/
theorem c2_first_match_witness :
    ∃ pre hd post,
      (parse_sections (ofStr "# Build\nx\n# B\ny")).2 = pre ++ hd :: post ∧
      (lowerStr hd.title = lowerStr (ofStr "B") ∨
        containsSub (lowerStr hd.title) (lowerStr (ofStr "B")) = true) ∧
      (∀ r ∈ pre, ¬ (lowerStr r.title = lowerStr (ofStr "B") ∨
        containsSub (lowerStr r.title) (lowerStr (ofStr "B")) = true)) ∧
      0 = hd.line_index ∧ 1 = hd.level :=
  (c2_first_match (ofStr "# Build\nx\n# B\ny") (ofStr "B")).1 0 2 1 (by decide)

/-- C6: every located range satisfies start < end, end at most the
line count, and the recorded level is the level of the heading record
of the outline at the start line. -/
theorem c6_range_invariants (text target : List Char) (s e lv : Nat)
    (h : locate text target = some (s, e, lv)) :
    s < e ∧ e ≤ (splitLines text).length ∧
      ∃ r ∈ (parse_sections text).2, r.line_index = s ∧ r.level = lv := by
  obtain ⟨pre, hd, post, heq, hpre, hhd, hs, hlv, he, hhd_lt, hpost_b, hpostpw⟩ :=
    locate_some_split text target s e lv h
  have hmem_hd : hd ∈ (parse_sections text).2 := by
    show hd ∈ sectionsFrom 0 (splitLines text)
    rw [heq]
    exact List.mem_append_right pre (List.mem_cons_self hd post)
  refine ⟨?_, ?_, hd, hmem_hd, hs.symm, hlv.symm⟩
  · rcases section_end_spec (splitLines text).length lv post with
      ⟨p1, b, p2, hpost, hp1, hb, hend⟩ | ⟨hall, hend⟩
    · have hbmem : b ∈ post := by
        rw [hpost]
        exact List.mem_append_right p1 (List.mem_cons_self b p2)
      rw [he, hend, hs]
      exact (hpost_b b hbmem).1
    · rw [he, hend, hs]
      exact hhd_lt
  · rcases section_end_spec (splitLines text).length lv post with
      ⟨p1, b, p2, hpost, hp1, hb, hend⟩ | ⟨hall, hend⟩
    · have hbmem : b ∈ post := by
        rw [hpost]
        exact List.mem_append_right p1 (List.mem_cons_self b p2)
      rw [he, hend]
      exact Nat.le_of_lt (hpost_b b hbmem).2
    · rw [he, hend]

/-- C6 witness: the located range of section A in a two-section
document is (0, 2, 1) with 0 < 2 and 2 at most the line count 4, and
the outline holds a level-1 record at line 0. -/
theorem c6_range_invariants_witness :
    0 < 2 ∧ 2 ≤ (splitLines (ofStr "# A\nx\n# C\ny")).length ∧
      ∃ r ∈ (parse_sections (ofStr "# A\nx\n# C\ny")).2,
        r.line_index = 0 ∧ r.level = 1 :=
  c6_range_invariants (ofStr "# A\nx\n# C\ny") (ofStr "A") 0 2 1 (by decide)

/-- C7: when no heading of the outline matches the target title
case-insensitively (neither by equality nor by substring containment),
the locator returns none, both mutating operations return none rather
than any document, and the command-level paths surface the not-found
error, so no mutation is attempted. -/
theorem c7_not_found (text target content : List Char)
    (h : ∀ r ∈ (parse_sections text).2,
      ¬ (lowerStr r.title = lowerStr target ∨
         containsSub (lowerStr r.title) (lowerStr target) = true)) :
    locate text target = none ∧
      replace_section text target content = none ∧
      append_after_section text target content = none ∧
      runReplace text target (some content) = Except.error CliError.notFound ∧
      runAppend text target (some content) = Except.error CliError.notFound := by
  have hfm : ∀ r ∈ sectionsFrom 0 (splitLines text),
      titleMatches target r.title = false := by
    intro r hr
    cases hq : titleMatches target r.title
    · rfl
    · exact absurd ((titleMatches_iff target r.title).mp hq) (h r hr)
  have hloc : locate text target = none :=
    find_bounds_none (splitLines text) (sectionsFrom 0 (splitLines text)) target hfm
  refine ⟨hloc, ?_, ?_, ?_, ?_⟩
  · simp [replace_section, hloc]
  · simp [append_after_section, hloc]
  · simp [runReplace, replace_section, hloc]
  · simp [runAppend, append_after_section, hloc]

/-- C7 witness: target zzz matches neither heading of a one-section
document, so the locator and both mutations fail without producing a
document. -/
theorem c7_not_found_witness :
    locate (ofStr "# Alpha\nbody") (ofStr "zzz") = none ∧
      replace_section (ofStr "# Alpha\nbody") (ofStr "zzz") (ofStr "new") = none ∧
      append_after_section (ofStr "# Alpha\nbody") (ofStr "zzz") (ofStr "new") = none ∧
      runReplace (ofStr "# Alpha\nbody") (ofStr "zzz") (some (ofStr "new")) =
        Except.error CliError.notFound ∧
      runAppend (ofStr "# Alpha\nbody") (ofStr "zzz") (some (ofStr "new")) =
        Except.error CliError.notFound :=
  c7_not_found (ofStr "# Alpha\nbody") (ofStr "zzz") (ofStr "new") (by decide)

/-- C10: on a document whose outline is nonempty, the empty target
title matches the first heading (the empty string is a substring of
every title), so the locator returns the first heading's range and
never none. -/
theorem c10_empty_target (text : List Char) (h0 : HeadingRecord)
    (rest : List HeadingRecord) (h : (parse_sections text).2 = h0 :: rest) :
    locate text [] = some (h0.line_index,
      section_end_idx (splitLines text).length h0.level rest, h0.level) := by
  have hsub : containsSub (lowerStr h0.title) (lowerStr []) = true := by
    show containsSub (lowerStr h0.title) [] = true
    cases lowerStr h0.title with
    | nil => rfl
    | cons c t => simp [containsSub, List.isPrefixOf]
  have hm : titleMatches [] h0.title = true := by
    unfold titleMatches
    rw [hsub]
    simp
  show find_section_bounds (splitLines text) ((parse_sections text).2) [] = _
  rw [h]
  simp [find_section_bounds, hm]

/-- C10 witness: the empty target on a two-section document returns
the first section's full range. -/
theorem c10_empty_target_witness :
    locate (ofStr "# A\nbody\n# B") [] = some (0, 2, 1) :=
  c10_empty_target (ofStr "# A\nbody\n# B") ⟨0, 1, ofStr "A"⟩
    [⟨2, 1, ofStr "B"⟩] (by decide)

/-- C8 counterexample: an empty content string supplied through stdin
(or a file) is not rejected: the replace path accepts it and builds a
document from empty content, while the claim demands an explicit error
for empty content. -/
theorem c8_counterexample :
    read_content (ContentSource.stdin []) = some [] ∧
    runReplace (ofStr "# A") (ofStr "A") (read_content (ContentSource.stdin [])) =
      Except.ok (ofStr "# A\n\n\n") ∧
    runAppend (ofStr "# A") (ofStr "A") (read_content (ContentSource.stdin [])) =
      Except.ok (ofStr "# A\n\n\n") :=
  ⟨rfl, rfl, rfl⟩

/-- C8 as amended: the replace and append paths reject with the
no-content error exactly when no content was supplied: no content
source at all, or an inline content argument equal to the empty
string, which the Python truthiness test treats as absent.  Content
that is an empty string but arrives from a file or stdin is accepted. -/
theorem c8_absent_content_rejected (text target : List Char) :
    runReplace text target (read_content ContentSource.absent) =
      Except.error CliError.noContent ∧
    runAppend text target (read_content ContentSource.absent) =
      Except.error CliError.noContent ∧
    runReplace text target (read_content (ContentSource.inlineArg [])) =
      Except.error CliError.noContent ∧
    runAppend text target (read_content (ContentSource.inlineArg [])) =
      Except.error CliError.noContent := by
  refine ⟨rfl, rfl, ?_, ?_⟩
  · show runReplace text target (if ([] : List Char) = [] then none else some []) = _
    rw [if_pos rfl]
    rfl
  · show runAppend text target (if ([] : List Char) = [] then none else some []) = _
    rw [if_pos rfl]
    rfl

/-- C3 counterexample: for the empty content string the claim's
reading (content lines with trailing blank lines trimmed, which for
empty content leaves no line) predicts two blank separator lines, but
replace_section splits the newline-stripped content and keeps one
empty line, producing three blank lines. -/
theorem c3_counterexample :
    replace_section (ofStr "# A\nx\n# C") (ofStr "A") (ofStr "") =
      some (ofStr "# A\n\n\n\n# C") ∧
    ofStr "# A\n\n\n\n# C" ≠
      joinLines ((splitLines (ofStr "# A\nx\n# C")).take 1 ++ [[]] ++
        trimTrailingBlank (splitLines (ofStr "")) ++ [[]] ++
        (splitLines (ofStr "# A\nx\n# C")).drop 2) := by decide

/-- C3 as amended: for every located section, replace_section returns
exactly the lines up to and including the heading line, one blank
line, the lines of the content string after its trailing newline
characters are removed (a single empty line when the content is empty
or consists only of newlines), one blank line, and the lines from the
end boundary on, rejoined into one text. -/
theorem c3_replace_shape (text target content : List Char) (s e lv : Nat)
    (h : locate text target = some (s, e, lv)) :
    replace_section text target content =
      some (joinLines ((splitLines text).take (s + 1) ++ [[]] ++
        splitLines (rstripNl content) ++ [[]] ++ (splitLines text).drop e)) := by
  unfold replace_section
  rw [h]

/-- C3 witness: the specification's own scenario, replacing section A
of a six-line document with the single line new. -/
theorem c3_replace_shape_witness :
    replace_section (ofStr "# A\ntext1\n## B\ntext2\n# C\ntext3") (ofStr "A")
      (ofStr "new") =
      some (joinLines
        ((splitLines (ofStr "# A\ntext1\n## B\ntext2\n# C\ntext3")).take (0 + 1) ++
          [[]] ++ splitLines (rstripNl (ofStr "new")) ++ [[]] ++
          (splitLines (ofStr "# A\ntext1\n## B\ntext2\n# C\ntext3")).drop 4)) :=
  c3_replace_shape (ofStr "# A\ntext1\n## B\ntext2\n# C\ntext3") (ofStr "A")
    (ofStr "new") 0 4 1 (by decide)

theorem joinLines_wrap (L C : List (List Char)) (hL : L ≠ []) (hC : C ≠ []) :
    joinLines (L ++ [[]] ++ C ++ [[]]) =
      joinLines L ++ '\n' :: '\n' :: (joinLines C ++ ['\n']) := by
  have h1 : L ++ [[]] ++ C ++ [[]] = L ++ ([[]] ++ (C ++ [[]])) := by
    simp [List.append_assoc]
  rw [h1, joinLines_append L ([[]] ++ (C ++ [[]])) hL (by simp)]
  have h2 : ([[]] : List (List Char)) ++ (C ++ [[]]) = [] :: (C ++ [[]]) := rfl
  rw [h2]
  have h3 : joinLines ([] :: (C ++ [[]])) = '\n' :: joinLines (C ++ [[]]) := by
    cases hq : C ++ [[]] with
    | nil => exact absurd hq (by simp)
    | cons y ys => simp [joinLines]
  rw [h3, joinLines_append C [[]] hC (by simp)]
  rfl

/-- C9 counterexample: appending the empty content string after the
last section keeps a single empty content line, giving three trailing
newlines, while the claim's reading (content lines with trailing blank
lines trimmed, leaving no line) predicts two. -/
theorem c9_counterexample :
    locate (ofStr "# A") (ofStr "A") = some (0, 1, 1) ∧
    append_after_section (ofStr "# A") (ofStr "A") (ofStr "") =
      some (ofStr "# A\n\n\n") ∧
    ofStr "# A\n\n\n" ≠
      joinLines (splitLines (ofStr "# A") ++ [[]] ++
        trimTrailingBlank (splitLines (ofStr "")) ++ [[]]) := by decide

/-- C9 as amended: when the matched section is the last one (the end
boundary equals the line count), append_after_section returns the
whole original document unchanged, one blank line, the content with
its trailing newline characters removed (kept as a single empty line
when that leaves nothing), and one blank line at end of document. -/
theorem c9_append_last (text target content : List Char) (s e lv : Nat)
    (hloc : locate text target = some (s, e, lv))
    (hlast : e = (splitLines text).length) :
    append_after_section text target content =
      some (text ++ '\n' :: '\n' :: (rstripNl content ++ ['\n'])) := by
  have hdef : append_after_section text target content =
      some (joinLines ((splitLines text).take e ++ [[]] ++
        splitLines (rstripNl content) ++ [[]] ++ (splitLines text).drop e)) := by
    unfold append_after_section
    rw [hloc]
  rw [hdef, hlast, List.take_length, List.drop_length, List.append_nil]
  rw [joinLines_wrap (splitLines text) (splitLines (rstripNl content))
    (splitLines_ne_nil text) (splitLines_ne_nil (rstripNl content))]
  rw [joinLines_splitLines, joinLines_splitLines]

/-- C9 witness: appending new after the last (and only) section of a
two-line document places it at end of document between blank lines. -/
theorem c9_append_last_witness :
    append_after_section (ofStr "# A\nbody") (ofStr "A") (ofStr "new") =
      some (ofStr "# A\nbody" ++ '\n' :: '\n' :: (rstripNl (ofStr "new") ++ ['\n'])) :=
  c9_append_last (ofStr "# A\nbody") (ofStr "A") (ofStr "new") 0 2 1
    (by decide) (by decide)

/-- C4 counterexample: replacing section A with content that is itself
a level-1 heading is not idempotent: on the second pass the inserted
heading becomes the section's end boundary, so the content is inserted
again and the document grows. -/
theorem c4_counterexample :
    replace_section (ofStr "# A\nx\n# C") (ofStr "A") (ofStr "# B") =
      some (ofStr "# A\n\n# B\n\n# C") ∧
    replace_section (ofStr "# A\n\n# B\n\n# C") (ofStr "A") (ofStr "# B") =
      some (ofStr "# A\n\n# B\n\n# B\n\n# C") ∧
    ofStr "# A\n\n# B\n\n# B\n\n# C" ≠ ofStr "# A\n\n# B\n\n# C" := by decide

theorem heading_re_match_nil : heading_re_match [] = none := by decide

theorem sectionsFrom_single_blank (j : Nat) : sectionsFrom j [[]] = [] := by
  rw [sectionsFrom_cons_none j [] [] heading_re_match_nil]
  rfl

/-- C4 as amended: replacing a section's body with content X and then
replacing again with the same X returns the same document, provided no
line of X (after trailing-newline trimming) parses as a heading of
level at most the matched section's level; the counterexample shows
that without this proviso a heading inside X truncates the located
range on the second pass and the content is duplicated. -/
theorem c4_replace_idempotent (text target content : List Char) (s e lv : Nat)
    (D1 : List Char)
    (hloc : locate text target = some (s, e, lv))
    (hrep : replace_section text target content = some D1)
    (hsafe : ∀ l ∈ splitLines (rstripNl content), contentSafe lv l = true) :
    replace_section D1 target content = some D1 := by
  obtain ⟨pre, hd, post, heq, hpre, hhd, hs, hlv, he, hhd_lt, hpost_b, hpostpw⟩ :=
    locate_some_split text target s e lv hloc
  have hsle : s + 1 ≤ (splitLines text).length := by
    rw [hs]
    omega
  have hAlen : ((splitLines text).take (s + 1)).length = s + 1 := by
    rw [List.length_take]
    omega
  have hD1 : D1 = joinLines ((splitLines text).take (s + 1) ++ [[]] ++
      splitLines (rstripNl content) ++ [[]] ++ (splitLines text).drop e) := by
    have h2 := hrep
    unfold replace_section at h2
    rw [hloc] at h2
    exact (Option.some_inj.mp h2).symm
  have hnl : ∀ l ∈ (splitLines text).take (s + 1) ++ [[]] ++
      splitLines (rstripNl content) ++ [[]] ++ (splitLines text).drop e,
      '\n' ∉ l := by
    intro l hl
    rcases List.mem_append.mp hl with h15 | h5
    · rcases List.mem_append.mp h15 with h14 | h4
      · rcases List.mem_append.mp h14 with h13 | h3
        · rcases List.mem_append.mp h13 with h1 | h2
          · exact mem_splitLines_not_nl text l (List.mem_of_mem_take h1)
          · have hx : l = [] := by simpa using h2
            rw [hx]
            simp
        · exact mem_splitLines_not_nl (rstripNl content) l h3
      · have hx : l = [] := by simpa using h4
        rw [hx]
        simp
    · exact mem_splitLines_not_nl text l (List.mem_of_mem_drop h5)
  have hne : (splitLines text).take (s + 1) ++ [[]] ++
      splitLines (rstripNl content) ++ [[]] ++ (splitLines text).drop e ≠ [] := by
    have hmem : ([] : List Char) ∈ (splitLines text).take (s + 1) ++ [[]] ++
        splitLines (rstripNl content) ++ [[]] ++ (splitLines text).drop e := by
      simp
    intro hcontra
    rw [hcontra] at hmem
    simp at hmem
  have hsplitD1 : splitLines D1 = (splitLines text).take (s + 1) ++ [[]] ++
      splitLines (rstripNl content) ++ [[]] ++ (splitLines text).drop e := by
    rw [hD1]
    exact splitLines_joinLines _ hne hnl
  have hpw : ((pre ++ hd :: post) : List HeadingRecord).Pairwise
      (fun a b => a.line_index < b.line_index) := by
    rw [← heq]
    exact sectionsFrom_pairwise (splitLines text) 0
  have hpre_lt : ∀ r ∈ pre, r.line_index < hd.line_index := fun r hr =>
    (List.pairwise_append.mp hpw).2.2 r hr hd (List.mem_cons_self hd post)
  have hsecs_split : sectionsFrom 0 (splitLines text) =
      sectionsFrom 0 ((splitLines text).take (s + 1)) ++
      sectionsFrom (s + 1) ((splitLines text).drop (s + 1)) := by
    conv_lhs => rw [← List.take_append_drop (s + 1) (splitLines text)]
    rw [sectionsFrom_append _ _ 0, hAlen, Nat.zero_add]
  have hsplit2 := append_split_unique (fun r => r.line_index < s + 1)
    (sectionsFrom 0 ((splitLines text).take (s + 1)))
    (pre ++ [hd])
    (sectionsFrom (s + 1) ((splitLines text).drop (s + 1)))
    post
    (by rw [← hsecs_split, heq]; simp)
    (by
      intro r hr
      show r.line_index < s + 1
      have hb := sectionsFrom_mem_bounds ((splitLines text).take (s + 1)) 0 r hr
      omega)
    (by
      intro r hr
      show ¬ r.line_index < s + 1
      have hb := sectionsFrom_mem_bounds ((splitLines text).drop (s + 1)) (s + 1) r hr
      omega)
    (by
      intro r hr
      show r.line_index < s + 1
      rcases List.mem_append.mp hr with h1 | h2
      · have := hpre_lt r h1
        omega
      · have hx : r = hd := by simpa using h2
        rw [hx]
        omega)
    (by
      intro r hr
      show ¬ r.line_index < s + 1
      have := (hpost_b r hr).1
      omega)
  obtain ⟨hA_eq, hdrop_eq⟩ := hsplit2
  have hC_lvl : ∀ r ∈ sectionsFrom (s + 2) (splitLines (rstripNl content)),
      lv < r.level := by
    intro r hr
    obtain ⟨l, hl, g, hg, -⟩ := sectionsFrom_mem_parse _ (s + 2) r hr
    have hc := hsafe l hl
    unfold contentSafe at hc
    rw [hg] at hc
    exact of_decide_eq_true hc
  have hassocD1 : (splitLines text).take (s + 1) ++ [[]] ++
      splitLines (rstripNl content) ++ [[]] ++ (splitLines text).drop e =
      (splitLines text).take (s + 1) ++ ([[]] ++ (splitLines (rstripNl content) ++
        ([[]] ++ (splitLines text).drop e))) := by
    simp [List.append_assoc]
  have t1 : sectionsFrom 0 (splitLines D1) =
      sectionsFrom 0 ((splitLines text).take (s + 1)) ++
      sectionsFrom (s + 1) ([[]] ++ (splitLines (rstripNl content) ++
        ([[]] ++ (splitLines text).drop e))) := by
    rw [hsplitD1, hassocD1, sectionsFrom_append _ _ 0, hAlen, Nat.zero_add]
  have t2 : sectionsFrom (s + 1) ([[]] ++ (splitLines (rstripNl content) ++
      ([[]] ++ (splitLines text).drop e))) =
      sectionsFrom (s + 2) (splitLines (rstripNl content) ++
        ([[]] ++ (splitLines text).drop e)) := by
    rw [sectionsFrom_append [[]] _ (s + 1), sectionsFrom_single_blank,
      List.nil_append]
    rw [show s + 1 + ([[]] : List (List Char)).length = s + 2 from rfl]
  have t3 : sectionsFrom (s + 2) (splitLines (rstripNl content) ++
      ([[]] ++ (splitLines text).drop e)) =
      sectionsFrom (s + 2) (splitLines (rstripNl content)) ++
      sectionsFrom (s + 3 + (splitLines (rstripNl content)).length)
        ((splitLines text).drop e) := by
    rw [sectionsFrom_append (splitLines (rstripNl content))
      ([[]] ++ (splitLines text).drop e) (s + 2)]
    congr 1
    rw [sectionsFrom_append [[]] ((splitLines text).drop e)
      (s + 2 + (splitLines (rstripNl content)).length)]
    rw [sectionsFrom_single_blank, List.nil_append]
    rw [show s + 2 + (splitLines (rstripNl content)).length +
        ([[]] : List (List Char)).length =
        s + 3 + (splitLines (rstripNl content)).length from by
      simp only [List.length_singleton]
      omega]
  have hsecsD1 : sectionsFrom 0 (splitLines D1) =
      pre ++ (hd :: (sectionsFrom (s + 2) (splitLines (rstripNl content)) ++
        sectionsFrom (s + 3 + (splitLines (rstripNl content)).length)
          ((splitLines text).drop e))) := by
    rw [t1, t2, t3, hA_eq]
    simp [List.append_assoc]
  have hfind2 : find_section_bounds (splitLines D1)
      (sectionsFrom 0 (splitLines D1)) target =
      some (hd.line_index,
        section_end_idx (splitLines D1).length hd.level
          (sectionsFrom (s + 2) (splitLines (rstripNl content)) ++
           sectionsFrom (s + 3 + (splitLines (rstripNl content)).length)
             ((splitLines text).drop e)),
        hd.level) := by
    rw [hsecsD1, find_bounds_append_skip (splitLines D1) pre _ target hpre]
    simp [find_section_bounds, hhd]
  have hskip : section_end_idx (splitLines D1).length hd.level
      (sectionsFrom (s + 2) (splitLines (rstripNl content)) ++
       sectionsFrom (s + 3 + (splitLines (rstripNl content)).length)
         ((splitLines text).drop e)) =
      section_end_idx (splitLines D1).length hd.level
        (sectionsFrom (s + 3 + (splitLines (rstripNl content)).length)
          ((splitLines text).drop e)) := by
    apply section_end_append
    intro r hr
    rw [← hlv]
    exact hC_lvl r hr
  have htake : (splitLines D1).take (s + 1) = (splitLines text).take (s + 1) := by
    rw [hsplitD1, hassocD1]
    exact List.take_left' hAlen
  have hdropD1 : (splitLines D1).drop
      (s + 3 + (splitLines (rstripNl content)).length) =
      (splitLines text).drop e := by
    rw [hsplitD1]
    apply List.drop_left'
    simp only [List.length_append, List.length_singleton, hAlen]
    omega
  rcases section_end_spec (splitLines text).length lv post with
    ⟨p1, b, p2, hpostshape, hp1, hblev, hend⟩ | ⟨hall, hend⟩
  · -- a boundary heading b exists in the original document
    have he_b : e = b.line_index := by rw [he, hend]
    have hb_mem : b ∈ post := by
      rw [hpostshape]
      exact List.mem_append_right p1 (List.mem_cons_self b p2)
    have hb_bounds := hpost_b b hb_mem
    have hse : s + 1 ≤ e := by
      rw [he_b, hs]
      omega
    have helen : e ≤ (splitLines text).length := by
      rw [he_b]
      omega
    have hdrop_decomp : (splitLines text).drop (s + 1) =
        ((splitLines text).drop (s + 1)).take (e - (s + 1)) ++
        (splitLines text).drop e := by
      have h1 : (((splitLines text).drop (s + 1)).drop (e - (s + 1))) =
          (splitLines text).drop e := by
        rw [List.drop_drop]
        rw [show s + 1 + (e - (s + 1)) = e from by omega]
      conv_lhs => rw [← List.take_append_drop (e - (s + 1))
        ((splitLines text).drop (s + 1))]
      rw [h1]
    have hmidlen : (((splitLines text).drop (s + 1)).take (e - (s + 1))).length =
        e - (s + 1) := by
      rw [List.length_take, List.length_drop]
      omega
    have hpost_split : sectionsFrom (s + 1) ((splitLines text).drop (s + 1)) =
        sectionsFrom (s + 1)
          (((splitLines text).drop (s + 1)).take (e - (s + 1))) ++
        sectionsFrom e ((splitLines text).drop e) := by
      conv_lhs => rw [hdrop_decomp]
      rw [sectionsFrom_append _ _ (s + 1), hmidlen]
      rw [show s + 1 + (e - (s + 1)) = e from by omega]
    have hpostpw' : (p1 ++ b :: p2).Pairwise
        (fun a b => a.line_index < b.line_index) := by
      rw [← hpostshape]
      exact hpostpw
    have hp1_lt_b : ∀ r ∈ p1, r.line_index < b.line_index := fun r hr =>
      (List.pairwise_append.mp hpostpw').2.2 r hr b (List.mem_cons_self b p2)
    have hp2_gt : ∀ r ∈ p2, b.line_index < r.line_index :=
      (List.pairwise_cons.mp (List.pairwise_append.mp hpostpw').2.1).1
    have hsplitpost := append_split_unique (fun r => r.line_index < e)
      (sectionsFrom (s + 1)
        (((splitLines text).drop (s + 1)).take (e - (s + 1))))
      p1
      (sectionsFrom e ((splitLines text).drop e))
      (b :: p2)
      (by rw [← hpost_split, hdrop_eq, hpostshape])
      (by
        intro r hr
        show r.line_index < e
        have hb2 := sectionsFrom_mem_bounds
          (((splitLines text).drop (s + 1)).take (e - (s + 1))) (s + 1) r hr
        omega)
      (by
        intro r hr
        show ¬ r.line_index < e
        have hb2 := sectionsFrom_mem_bounds ((splitLines text).drop e) e r hr
        omega)
      (by
        intro r hr
        show r.line_index < e
        have := hp1_lt_b r hr
        omega)
      (by
        intro r hr
        show ¬ r.line_index < e
        rcases List.mem_cons.mp hr with h1 | h2
        · rw [h1]
          omega
        · have := hp2_gt r h2
          omega)
    obtain ⟨-, hsecB⟩ := hsplitpost
    cases hB : (splitLines text).drop e with
    | nil =>
      rw [hB] at hsecB
      exact absurd hsecB.symm (List.cons_ne_nil b p2)
    | cons b0 B' =>
      rw [hB] at hsecB
      cases hb0 : heading_re_match b0 with
      | none =>
        rw [sectionsFrom_cons_none e b0 B' hb0] at hsecB
        have hbmem2 : b ∈ sectionsFrom (e + 1) B' := by
          rw [hsecB]
          exact List.mem_cons_self b p2
        have := sectionsFrom_mem_bounds B' (e + 1) b hbmem2
        omega
      | some p =>
        obtain ⟨nb, gb⟩ := p
        rw [sectionsFrom_cons_some e b0 B' nb gb hb0] at hsecB
        injection hsecB with hb1 hb2
        have hnb : nb ≤ lv := by
          have hx : b.level = nb := by rw [← hb1]
          omega
        have hSB : sectionsFrom (s + 3 + (splitLines (rstripNl content)).length)
            ((splitLines text).drop e) =
            (⟨s + 3 + (splitLines (rstripNl content)).length, nb,
              stripChars gb⟩ : HeadingRecord) ::
              sectionsFrom
                (s + 3 + (splitLines (rstripNl content)).length + 1) B' := by
          rw [hB]
          exact sectionsFrom_cons_some _ b0 B' nb gb hb0
        have hend2 : section_end_idx (splitLines D1).length hd.level
            (sectionsFrom (s + 3 + (splitLines (rstripNl content)).length)
              ((splitLines text).drop e)) =
            s + 3 + (splitLines (rstripNl content)).length := by
          rw [hSB]
          have hcond : nb ≤ hd.level := by omega
          simp [section_end_idx, hcond]
        have hloc2 : locate D1 target =
            some (s, s + 3 + (splitLines (rstripNl content)).length, lv) := by
          show find_section_bounds (splitLines D1)
            (sectionsFrom 0 (splitLines D1)) target = _
          rw [hfind2, hskip, hend2, hs, hlv]
        unfold replace_section
        rw [hloc2]
        show some (joinLines ((splitLines D1).take (s + 1) ++ [[]] ++
            splitLines (rstripNl content) ++ [[]] ++
            (splitLines D1).drop
              (s + 3 + (splitLines (rstripNl content)).length))) = some D1
        rw [htake, hdropD1, hD1]
  · -- no boundary heading: the section runs to the end of the document
    have he_len : e = (splitLines text).length := by rw [he, hend]
    have hB_nil : (splitLines text).drop e = [] := by
      rw [he_len]
      exact List.drop_length _
    have hend2 : section_end_idx (splitLines D1).length hd.level
        (sectionsFrom (s + 3 + (splitLines (rstripNl content)).length)
          ((splitLines text).drop e)) = (splitLines D1).length := by
      rw [hB_nil]
      rfl
    have hloc2 : locate D1 target = some (s, (splitLines D1).length, lv) := by
      show find_section_bounds (splitLines D1)
        (sectionsFrom 0 (splitLines D1)) target = _
      rw [hfind2, hskip, hend2, hs, hlv]
    unfold replace_section
    rw [hloc2]
    show some (joinLines ((splitLines D1).take (s + 1) ++ [[]] ++
        splitLines (rstripNl content) ++ [[]] ++
        (splitLines D1).drop (splitLines D1).length)) = some D1
    rw [htake, List.drop_length, List.append_nil, hD1, hB_nil, List.append_nil]

/-- C4 witness: replacing section A with the plain line x twice fixes
the document produced by the first replacement. -/
theorem c4_replace_idempotent_witness :
    replace_section (ofStr "# A\n\nx\n\n# C") (ofStr "A") (ofStr "x") =
      some (ofStr "# A\n\nx\n\n# C") :=
  c4_replace_idempotent (ofStr "# A\nold\n# C") (ofStr "A") (ofStr "x") 0 2 1
    (ofStr "# A\n\nx\n\n# C") (by decide) (by decide) (by decide)
